import Mathlib

/-!
Verification of the note_nabber_v2 repository's note segmentation engine,
natural sort key, project search scanner and backup duplicate resolver.

The definitions below are a shallow embedding of the Python source:
  - `parseA` embeds `parse_notes` of src/note_nabber_v2.py (Policy A,
    header-to-next-header);
  - `parseB` embeds `parse_notes` of src/note_nabber_project_with_search.py
    (Policy B, header + explicit `^^^` end marker);
  - `natural_sort_key` embeds `natural_sort_key` (identical in both files);
  - `search_in_project` and `filter_backup_duplicates` embed the search and
    dedup functions of src/note_nabber_project_with_search.py.

Modelling conventions:
  - a Python text line is a `String` without a newline character; a whole
    input file is a `String` and `toLines` reproduces Python file line
    iteration combined with `line.rstrip("\n")`;
  - Python's `str.strip()` and the regex class `\s` are modelled by
    `Char.isWhitespace` (they agree on the ASCII whitespace the tool's
    input format uses);
  - Python's `str.lower()` and regex `IGNORECASE` are modelled by
    `Char.toLower` (they agree on ASCII);
  - a filesystem path (`pathlib.Path`) is modelled by its list of parts
    (`PPath`), `p.name` by the last part, and a directory tree by a flat
    list of files each carrying the directory parts leading to it;
  - a Python `dict` is modelled by an insertion-ordered association list:
    assignment to an existing key updates it in place, otherwise appends.
-/

namespace NoteNabber

/-- Whitespace test modelling Python's `\s` character class and the
default `str.strip()` on the tool's ASCII input. -/
def isWS (c : Char) : Bool := c.isWhitespace

/-- Python `str.strip()` on a list of characters: drop whitespace from
both ends. -/
def pyStrip (l : List Char) : List Char :=
  ((l.dropWhile isWS).reverse.dropWhile isWS).reverse

/-- Python `str.strip()` on a string. -/
def stripStr (s : String) : String := String.mk (pyStrip s.data)

/-- Split a character list at newline characters, keeping every (possibly
empty) piece, as Python's `str.split("\n")` does. -/
def splitNLAux : List Char → List Char → List String
  | [], acc => [String.mk acc.reverse]
  | c :: rest, acc =>
    if c = '\n' then String.mk acc.reverse :: splitNLAux rest []
    else splitNLAux rest (c :: acc)

/-- Python file line iteration followed by `line.rstrip("\n")`: the lines
of the text, without their newline terminators; a trailing newline does
not produce an extra empty line. -/
def toLines (s : String) : List String :=
  let l := splitNLAux s.data []
  if l.getLast? = some "" then l.dropLast else l

/-- Embeds the header regex match of both `parse_notes` variants:
`re.compile(r'^nab\s*:\s*(.+)$', re.IGNORECASE).match(line)` followed by
`match.group(1).strip()`.  Returns the stripped name of group 1 when the
line matches, `none` otherwise.  The anchored pattern requires the line
to begin directly with the (case-insensitive) literal `nab`; `(.+)` is
greedy but backtracks so that, when everything after the colon is
whitespace, group 1 is the final whitespace character (stripping to ""). -/
def headerName? (line : String) : Option String :=
  match line.data with
  | c0 :: c1 :: c2 :: rest =>
    if c0.toLower = 'n' ∧ c1.toLower = 'a' ∧ c2.toLower = 'b' then
      match rest.dropWhile isWS with
      | [] => none
      | d :: r2 =>
        if d = ':' then
          match r2 with
          | [] => none
          | _ :: _ =>
            let g1 := if (r2.dropWhile isWS).isEmpty
                      then r2.drop (r2.length - 1)
                      else r2.dropWhile isWS
            some (String.mk (pyStrip g1))
        else none
    else none
  | _ => none

/-- The result mapping of `parse_notes`: an insertion-ordered association
list from note name to note body, modelling a Python `dict`. -/
abbrev NoteMap := List (String × String)

/-- Python `dict` assignment `m[k] = v`: update an existing key in place,
otherwise append at the end. -/
def dictInsert (m : NoteMap) (k v : String) : NoteMap :=
  match m with
  | [] => [(k, v)]
  | (k', v') :: rest =>
    if k' = k then (k, v) :: rest else (k', v') :: dictInsert rest k v

/-- Embeds `"\n".join(lines)`. -/
def joinLines (ls : List String) : String := String.intercalate "\n" ls

/-- Parser state of both `parse_notes` variants: the accumulated note map
and, when a note is open, its name and accumulated body lines. -/
abbrev ParseState := NoteMap × Option (String × List String)

/-- Embeds `notes[current_note_name] = "\n".join(current_lines).strip()`
guarded by `current_note_name is not None`. -/
def closeNote (m : NoteMap) (cur : Option (String × List String)) : NoteMap :=
  match cur with
  | some (n, acc) => dictInsert m n (stripStr (joinLines acc))
  | none => m

/-- One loop iteration of `parse_notes` in src/note_nabber_v2.py
(Policy A): a header line closes the open note (if any) and opens a new
one; any other line is appended to the open note's body, or ignored when
no note is open. -/
def parseAStep (st : ParseState) (line : String) : ParseState :=
  match headerName? line with
  | some name => (closeNote st.1 st.2, some (name, []))
  | none =>
    match st.2 with
    | some (n, acc) => (st.1, some (n, acc ++ [line]))
    | none => st

/-- Embeds `parse_notes` of src/note_nabber_v2.py on a list of lines:
fold the loop body over the lines, then auto-close the open note at end
of input. -/
def parseA (lines : List String) : NoteMap :=
  let st := lines.foldl parseAStep ([], none)
  closeNote st.1 st.2

/-- Policy A segmentation of a whole input text. -/
def parseA_str (s : String) : NoteMap := parseA (toLines s)

/-- One loop iteration of `parse_notes` in
src/note_nabber_project_with_search.py (Policy B): outside a note only a
header line does anything (it opens a note); inside a note a line whose
stripped content is `"^^^"` closes and stores it, and any other line is
appended to the body. -/
def parseBStep (st : ParseState) (line : String) : ParseState :=
  match st.2 with
  | none =>
    match headerName? line with
    | some name => (st.1, some (name, []))
    | none => st
  | some (n, acc) =>
    if stripStr line = "^^^" then
      (dictInsert st.1 n (stripStr (joinLines acc)), none)
    else (st.1, some (n, acc ++ [line]))

/-- Embeds `parse_notes` of src/note_nabber_project_with_search.py on a
list of lines: fold the loop body over the lines; an open note at end of
input is never closed and is dropped. -/
def parseB (lines : List String) : NoteMap :=
  (lines.foldl parseBStep ([], none)).1

/-- Policy B segmentation of a whole input text. -/
def parseB_str (s : String) : NoteMap := parseB (toLines s)

/-- C7: Policy B explicit-marker segmentation of the input
`"nab: Alpha\nl1\n^^^\nnoise\nnab: Beta\nl2\n^^^\n"` yields exactly
`{"Alpha": "l1", "Beta": "l2"}`; the `^^^` marker lines are discarded and
the `noise` line outside any open note appears in no note body. -/
theorem policyB_marker_example :
    parseB_str "nab: Alpha\nl1\n^^^\nnoise\nnab: Beta\nl2\n^^^\n" =
      [("Alpha", "l1"), ("Beta", "l2")] := by decide

/-- C2 counterexample: under Policy A the input `"nab:\nbody\n"` does not
yield `{"": "body"}`; the regex group `(.+)` requires at least one
character after the colon, so the bare `"nab:"` line is not a header and
the result is the empty map. -/
theorem empty_name_counterexample :
    parseA_str "nab:\nbody\n" = [] ∧
      parseA_str "nab:\nbody\n" ≠ [("", "body")] := by decide

/-- C2 amended: under Policy A the input `"nab:\nbody\n"` segments,
without raising, into the empty map (the header pattern requires at
least one character after the colon); an empty-name note arises exactly
when whitespace follows the colon, e.g. `"nab: \nbody\n"` yields
`{"": "body"}`. -/
theorem empty_name_amended :
    parseA_str "nab:\nbody\n" = [] ∧
      parseA_str "nab: \nbody\n" = [("", "body")] := by decide

/-- C3 counterexample: a single body line `"  indented"` is stored
without its two leading spaces: `"\n".join(lines).strip()` strips
leading and trailing whitespace of the whole body, not only blank
lines. -/
theorem body_whitespace_counterexample :
    parseA_str "nab: A\n  indented\n" = [("A", "indented")] ∧
      parseA_str "nab: A\n  indented\n" ≠ [("A", "  indented")] := by decide

/-- Header predicate following the spec claim word for word: the line is
trimmed first, then must match the case-insensitive pattern
`^\s*nab\s*:\s*(.+)\s*$`, and the name is group 1 trimmed.  In
particular leading whitespace before `nab` is tolerated.  This is the
comparison definition for the refinement claim C1; it is written from
the claim's words, not from the source. -/
def specHeaderTrim? (line : String) : Option String :=
  let cs := line.data.dropWhile isWS
  if (cs.take 3).map Char.toLower = ['n', 'a', 'b'] then
    match (cs.drop 3).dropWhile isWS with
    | [] => none
    | d :: r =>
      if d = ':' then
        if r.isEmpty then none else some (String.mk (pyStrip r))
      else none
  else none

/-- Header predicate following the amended claim wording: the raw line,
with no leading whitespace allowed, must start with the case-insensitive
literal `nab`, then optional whitespace, a colon, and at least one
further character; the name is everything after the colon, trimmed. -/
def correctedHeader? (line : String) : Option String :=
  if (line.data.take 3).map Char.toLower = ['n', 'a', 'b'] then
    match (line.data.drop 3).dropWhile isWS with
    | [] => none
    | d :: r =>
      if d = ':' then
        if r.isEmpty then none else some (String.mk (pyStrip r))
      else none
  else none

theorem dropWhile_dropWhile_self (p : Char → Bool) (l : List Char) :
    (l.dropWhile p).dropWhile p = l.dropWhile p := by
  induction l with
  | nil => rfl
  | cons c l ih =>
    by_cases h : p c
    · simp [List.dropWhile_cons, h, ih]
    · simp [List.dropWhile_cons, h]

theorem pyStrip_eq_nil_of_all (l : List Char) (h : ∀ c ∈ l, isWS c) :
    pyStrip l = [] := by
  unfold pyStrip
  rw [List.dropWhile_eq_nil_iff.mpr h]
  rfl

theorem pyStrip_dropWhile (l : List Char) :
    pyStrip (l.dropWhile isWS) = pyStrip l := by
  unfold pyStrip
  rw [dropWhile_dropWhile_self]

theorem pyStrip_group_one (l : List Char) :
    pyStrip (if (l.dropWhile isWS).isEmpty
             then l.drop (l.length - 1)
             else l.dropWhile isWS) = pyStrip l := by
  by_cases he : (l.dropWhile isWS).isEmpty
  · have hall : ∀ c ∈ l, isWS c := by
      refine List.dropWhile_eq_nil_iff.mp ?_
      simpa [List.isEmpty_iff] using he
    rw [if_pos he]
    rw [pyStrip_eq_nil_of_all _ hall,
      pyStrip_eq_nil_of_all _ (fun c hc => hall c (List.mem_of_mem_drop hc))]
  · rw [if_neg he, pyStrip_dropWhile]

theorem headerName_eq_corrected (line : String) :
    headerName? line = correctedHeader? line := by
  unfold headerName? correctedHeader?
  cases hl : line.data with
  | nil => simp
  | cons c0 t0 =>
    cases t0 with
    | nil => simp
    | cons c1 t1 =>
      cases t1 with
      | nil => simp
      | cons c2 rest =>
        simp only [List.take, List.map, List.drop]
        by_cases h : c0.toLower = 'n' ∧ c1.toLower = 'a' ∧ c2.toLower = 'b'
        · have h' : [c0.toLower, c1.toLower, c2.toLower] = ['n', 'a', 'b'] := by
            simp [h.1, h.2.1, h.2.2]
          rw [if_pos h, if_pos h']
          cases hr : rest.dropWhile isWS with
          | nil => rfl
          | cons d r2 =>
            dsimp only
            by_cases hd : d = ':'
            · rw [if_pos hd, if_pos hd]
              cases r2 with
              | nil => simp
              | cons a r2' =>
                simp only [List.isEmpty_cons, if_neg]
                rw [pyStrip_group_one]
                simp
            · rw [if_neg hd, if_neg hd]
        · have h' : ¬([c0.toLower, c1.toLower, c2.toLower] = ['n', 'a', 'b']) := by
            simpa using h
          rw [if_neg h, if_neg h']

/-- C1 counterexample: the line `" nab: x"` matches the claimed pattern
(after trimming, `^\s*nab\s*:\s*(.+)\s*$` with name `"x"`), yet neither
segmenter opens a note for it: the source pattern `^nab\s*:\s*(.+)$` is
anchored at the first character and tolerates no leading whitespace, so
the whole input parses to the empty map under both policies. -/
theorem header_leading_whitespace_counterexample :
    specHeaderTrim? " nab: x" = some "x"
    ∧ headerName? " nab: x" = none
    ∧ parseA_str " nab: x\nbody\n" = []
    ∧ parseB_str " nab: x\nbody\n" = [] := by decide

/-- C1 amended: header recognition does not tolerate leading whitespace.
In a state where a header can open a note, either segmenter opens a note
if and only if the raw line starts, at its very first character, with
the case-insensitive literal `nab`, followed by optional whitespace, a
colon, and at least one further character; the note name is the text
after the colon, trimmed. -/
theorem header_recognition_amended (line : String) (m : NoteMap) :
    headerName? line = correctedHeader? line
    ∧ parseAStep (m, none) line =
        (match correctedHeader? line with
          | some n => (m, some (n, []))
          | none => (m, none))
    ∧ parseBStep (m, none) line =
        (match correctedHeader? line with
          | some n => (m, some (n, []))
          | none => (m, none)) := by
  have hmain := headerName_eq_corrected line
  refine ⟨hmain, ?_, ?_⟩
  · unfold parseAStep
    rw [hmain]
    cases correctedHeader? line <;> simp [closeNote]
  · unfold parseBStep
    rw [hmain]

theorem foldA_body (bs : List String) (m : NoteMap) (n : String)
    (acc : List String) (hA : ∀ l ∈ bs, headerName? l = none) :
    bs.foldl parseAStep (m, some (n, acc)) = (m, some (n, acc ++ bs)) := by
  induction bs generalizing acc with
  | nil => simp
  | cons l bs ih =>
    have hl : headerName? l = none := hA l (List.mem_cons_self l bs)
    rw [List.foldl_cons]
    have hstep : parseAStep (m, some (n, acc)) l = (m, some (n, acc ++ [l])) := by
      simp [parseAStep, hl]
    rw [hstep, ih (acc ++ [l]) (fun x hx => hA x (List.mem_cons_of_mem l hx))]
    simp

theorem foldB_body (bs : List String) (m : NoteMap) (n : String)
    (acc : List String) (hB : ∀ l ∈ bs, stripStr l ≠ "^^^") :
    bs.foldl parseBStep (m, some (n, acc)) = (m, some (n, acc ++ bs)) := by
  induction bs generalizing acc with
  | nil => simp
  | cons l bs ih =>
    have hl : stripStr l ≠ "^^^" := hB l (List.mem_cons_self l bs)
    rw [List.foldl_cons]
    have hstep : parseBStep (m, some (n, acc)) l = (m, some (n, acc ++ [l])) := by
      simp [parseBStep, hl]
    rw [hstep, ih (acc ++ [l]) (fun x hx => hB x (List.mem_cons_of_mem l hx))]
    simp

/-- C3 amended: the stored body is the verbatim concatenation of the
lines between the header and the closing boundary, with leading and
trailing whitespace of the whole joined body removed (Python
`str.strip()`): this removes leading/trailing blank lines and also
leading/trailing horizontal whitespace on the first and last non-blank
lines; interior lines are preserved unchanged.  Holds for Policy A
(boundary: end of input) and Policy B (boundary: a `^^^` marker). -/
theorem body_verbatim_strip (h n : String) (bs : List String)
    (hh : headerName? h = some n)
    (hA : ∀ l ∈ bs, headerName? l = none)
    (hB : ∀ l ∈ bs, stripStr l ≠ "^^^") :
    parseA (h :: bs) = [(n, stripStr (joinLines bs))]
    ∧ parseB (h :: bs ++ ["^^^"]) = [(n, stripStr (joinLines bs))] := by
  constructor
  · unfold parseA
    rw [List.foldl_cons]
    have hstep : parseAStep ([], none) h = ([], some (n, [])) := by
      simp [parseAStep, hh, closeNote]
    rw [hstep, foldA_body bs [] n [] hA]
    simp [closeNote, dictInsert]
  · unfold parseB
    have hstep : parseBStep ([], none) h = ([], some (n, [])) := by
      simp [parseBStep, hh]
    have hinner : List.foldl parseBStep ([], none) (h :: bs) = ([], some (n, bs)) := by
      rw [List.foldl_cons, hstep, foldB_body bs [] n [] hB]
      simp
    have hm : stripStr "^^^" = "^^^" := by decide
    rw [List.foldl_append, hinner]
    simp [parseBStep, hm, dictInsert]

/-- C3 amended, witness: the header `"nab: A"` with single body line
`"  indented"` stores the body `"  indented"` with its edge whitespace
stripped, under both policies. -/
theorem body_verbatim_strip_witness :
    parseA ["nab: A", "  indented"] = [("A", stripStr (joinLines ["  indented"]))]
    ∧ parseB ["nab: A", "  indented", "^^^"] =
        [("A", stripStr (joinLines ["  indented"]))] :=
  body_verbatim_strip "nab: A" "A" ["  indented"] (by decide) (by decide) (by decide)

/-- C4: end-of-input asymmetry.  For any input whose final note is
unterminated (a prefix after which Policy B is outside any note, then a
header, then body lines containing no header and no `^^^` marker),
Policy A stores that final note at end of input with the body
accumulated so far, while Policy B returns exactly the notes of the
prefix: the open note is silently dropped, never closed. -/
theorem end_of_input_asymmetry (pre : List String) (h n : String) (bs : List String)
    (hh : headerName? h = some n)
    (hA : ∀ l ∈ bs, headerName? l = none)
    (hB : ∀ l ∈ bs, stripStr l ≠ "^^^")
    (hpre : (pre.foldl parseBStep ([], none)).2 = none) :
    parseA (pre ++ h :: bs) = dictInsert (parseA pre) n (stripStr (joinLines bs))
    ∧ parseB (pre ++ h :: bs) = parseB pre := by
  constructor
  · unfold parseA
    rw [List.foldl_append, List.foldl_cons]
    have hstep : parseAStep (pre.foldl parseAStep ([], none)) h =
        (closeNote (pre.foldl parseAStep ([], none)).1
          (pre.foldl parseAStep ([], none)).2, some (n, [])) := by
      simp [parseAStep, hh]
    rw [hstep, foldA_body bs _ n [] hA]
    simp [closeNote]
  · unfold parseB
    rw [List.foldl_append, List.foldl_cons]
    rcases hfold : pre.foldl parseBStep ([], none) with ⟨mB, sB⟩
    rw [hfold] at hpre
    obtain rfl : sB = none := hpre
    have hstep : parseBStep (mB, none) h = (mB, some (n, [])) := by
      simp [parseBStep, hh]
    rw [hstep, foldB_body bs mB n [] hB]

/-- C4 witness: the input `["nab: A", "x"]` (empty prefix, header, one
body line, no terminator) is stored by Policy A and dropped by
Policy B. -/
theorem end_of_input_asymmetry_witness :
    parseA ["nab: A", "x"] = dictInsert (parseA []) "A" (stripStr (joinLines ["x"]))
    ∧ parseB ["nab: A", "x"] = parseB [] :=
  end_of_input_asymmetry [] "nab: A" "A" ["x"] (by decide) (by decide) (by decide) rfl

/-- A filesystem path modelled as its list of parts, as in
`pathlib.Path.parts` / `dirpath.split(os.sep)`. -/
abbrev PPath := List String

/-- Embeds `pathlib.Path.name`: the final path component. -/
def pathName (p : PPath) : String := p.getLastD ""

/-- A regular file in the modelled directory tree: the directory parts
below the walk root leading to it, its filename, and its text lines
(already without newline terminators, as the scanner stores
`line.rstrip("\n")`). -/
structure FSFile where
  dirs : List String
  name : String
  lines : List String
deriving DecidableEq, Repr

/-- Character-list version of Python's startswith check. -/
def startsWithChars : List Char → List Char → Bool
  | [], _ => true
  | _ :: _, [] => false
  | a :: as, b :: bs => a = b && startsWithChars as bs

/-- Contiguous-substring containment on character lists, modelling
Python's `needle in hay`. -/
def hasSubChars (needle : List Char) : List Char → Bool
  | [] => startsWithChars needle []
  | b :: bs => startsWithChars needle (b :: bs) || hasSubChars needle bs

/-- Embeds Python's `str.endswith`. -/
def strEndsWith (s suff : String) : Bool :=
  decide (suff.data.length ≤ s.data.length) &&
    decide (s.data.drop (s.data.length - suff.data.length) = suff.data)

/-- Embeds Python's `str.lower()` (character-wise lowering). -/
def lowerStr (s : String) : String := String.mk (s.data.map Char.toLower)

/-- Embeds the per-line test `search_term_lower in line.lower()`:
case-insensitive substring containment. -/
def lineMatches (term line : String) : Bool :=
  hasSubChars (lowerStr term).data (lowerStr line).data

/-- Embeds `search_in_project` of src/note_nabber_project_with_search.py
over the modelled tree: `os.walk` visits each file's directory, whose
path parts are the root's parts followed by the file's directory parts;
a directory whose path contains a part `venv` is skipped (`'venv' in
dirpath.split(os.sep)`), filenames ending in `.py` or `.bat` are
skipped, and every remaining file contributes its matching lines under
the key `dirpath / filename`; files with no matching line get no key. -/
def search_in_project (rootParts : List String) (fs : List FSFile)
    (term : String) : List (PPath × List String) :=
  fs.flatMap (fun f =>
    if (rootParts ++ f.dirs).contains "venv" then []
    else if strEndsWith f.name ".py" || strEndsWith f.name ".bat" then []
    else
      match f.lines.filter (fun l => lineMatches term l) with
      | [] => []
      | m :: ms => [(rootParts ++ f.dirs ++ [f.name], m :: ms)])

/-- C6: venv exclusion invariant.  Every path in the raw search-result
map has no directory component (a part other than the final filename)
equal to `venv`: a file lying under a `venv` directory at any depth is
never reported, whatever its content. -/
theorem venv_exclusion (root : List String) (fs : List FSFile) (term : String)
    (p : PPath) (ms : List String)
    (h : (p, ms) ∈ search_in_project root fs term) :
    p.dropLast.contains "venv" = false := by
  rw [search_in_project, List.mem_flatMap] at h
  obtain ⟨f, hf, hmem⟩ := h
  by_cases hv : (root ++ f.dirs).contains "venv"
  · rw [if_pos hv] at hmem
    simp at hmem
  · rw [if_neg hv] at hmem
    by_cases he : strEndsWith f.name ".py" || strEndsWith f.name ".bat"
    · rw [if_pos he] at hmem
      simp at hmem
    · rw [if_neg he] at hmem
      rcases hfilt : f.lines.filter (fun l => lineMatches term l) with _ | ⟨m, ms'⟩
      · rw [hfilt] at hmem
        simp at hmem
      · rw [hfilt] at hmem
        rcases List.mem_singleton.mp hmem with hpair
        have hp : p = root ++ f.dirs ++ [f.name] := congrArg Prod.fst hpair
        rw [hp, List.append_assoc, ← List.append_assoc]
        rw [List.dropLast_concat]
        simpa using hv

/-- C6 witness: a file whose content contains the term `venv` but whose
directory path does not is reported, and its reported path has no `venv`
directory component. -/
theorem venv_exclusion_witness :
    (["r", "d", "a.txt"] : PPath).dropLast.contains "venv" = false :=
  venv_exclusion ["r"] [⟨["d"], "a.txt", ["hello venv"]⟩] "venv"
    ["r", "d", "a.txt"] ["hello venv"] (by decide)

/-- Embeds the test `"backup" not in path.parts` of
`filter_backup_duplicates`: true when no path component (directories and
the final filename alike) is the exact string `backup`. -/
def nonBackup (p : PPath) : Bool := !(p.contains "backup")

/-- One step of building `paths_by_filename`: append the entry to the
bucket of the given key, or create a new bucket at the end, as
`defaultdict(list)` does. -/
def addToGroups {α : Type} (gs : List (String × List (PPath × α)))
    (k : String) (e : PPath × α) : List (String × List (PPath × α)) :=
  match gs with
  | [] => [(k, [e])]
  | (k', es) :: rest =>
    if k' = k then (k', es ++ [e]) :: rest
    else (k', es) :: addToGroups rest k e

/-- Embeds the `paths_by_filename` construction of
`filter_backup_duplicates`: group the result entries by base filename in
insertion order.  The embedding carries each key's value (its match
list) along with the key; this is equivalent to the source's grouping of
bare keys followed by `raw_results[cp]` lookups because `dict` keys are
unique. -/
def groupByName {α : Type} (m : List (PPath × α)) :
    List (String × List (PPath × α)) :=
  m.foldl (fun gs e => addToGroups gs (pathName e.1) e) []

/-- Embeds the per-group choice of `filter_backup_duplicates`: when some
path of the group lies outside `backup` (`has_non_backup`), keep only
those; otherwise keep the whole group. -/
def chooseGroup {α : Type} (es : List (PPath × α)) : List (PPath × α) :=
  if es.any (fun e => nonBackup e.1) then es.filter (fun e => nonBackup e.1)
  else es

/-- Embeds `filter_backup_duplicates` of
src/note_nabber_project_with_search.py: group the raw results by
filename, apply the per-group choice, and collect the chosen entries
into the final map in group order. -/
def filter_backup_duplicates {α : Type} (m : List (PPath × α)) :
    List (PPath × α) :=
  (groupByName m).flatMap (fun g => chooseGroup g.2)

/-- Resolver predicate following the claim's words: the path lies
outside any DIRECTORY component named `backup` (the final filename
component is not a directory).  This is the comparison definition for
claim C5; it is written from the claim's words, not from the source,
which tests every component. -/
def outsideBackupDir (p : PPath) : Bool := !(p.dropLast.contains "backup")

/-- C5 counterexample: the group of filename `backup` containing the
paths `root/backup` (a file named `backup`, outside any backup
directory) and `root/backup/backup` (the same filename inside a
`backup` directory).  The claim requires the non-backup path to be kept
and the rest of the group discarded, but the code classifies both paths
as backup (`"backup" in path.parts` also matches the filename) and
keeps both. -/
theorem backup_filename_counterexample :
    outsideBackupDir ["root", "backup"] = true
    ∧ outsideBackupDir ["root", "backup", "backup"] = false
    ∧ pathName ["root", "backup"] = pathName ["root", "backup", "backup"]
    ∧ filter_backup_duplicates
        [(["root", "backup"], (0 : Nat)), (["root", "backup", "backup"], 1)]
      = [(["root", "backup"], 0), (["root", "backup", "backup"], 1)] := by
  decide

/-- C10: the resolver's shadow test is an exact, case-sensitive
membership check of the literal `backup` against every path component
including the final filename: paths under `Backup` or `backups`
directories count as canonical (and are preferred over true `backup`
paths), while a file itself named `backup` counts as a shadow even
outside any backup directory. -/
theorem backup_component_test_exact :
    nonBackup ["root", "Backup", "note.txt"] = true
    ∧ nonBackup ["root", "backups", "note.txt"] = true
    ∧ nonBackup ["root", "backup", "note.txt"] = false
    ∧ nonBackup ["root", "backup"] = false
    ∧ filter_backup_duplicates
        [(["root", "Backup", "note.txt"], (0 : Nat)),
         (["root", "backup", "note.txt"], 1)]
      = [(["root", "Backup", "note.txt"], 0)]
    ∧ filter_backup_duplicates
        [(["root", "backups", "note.txt"], (0 : Nat)),
         (["root", "backup", "note.txt"], 1)]
      = [(["root", "backups", "note.txt"], 0)]
    ∧ filter_backup_duplicates [(["proj", "backup"], (0 : Nat))]
      = [(["proj", "backup"], 0)] := by
  decide

/-- First bucket of the given filename key, or `[]` when absent. -/
def bucketFor {α : Type} (gs : List (String × List (PPath × α))) (k : String) :
    List (PPath × α) :=
  match gs with
  | [] => []
  | (k', es) :: rest => if k' = k then es else bucketFor rest k

/-- One grouping step keyed by the entry's filename. -/
def addEntry {α : Type} (gs : List (String × List (PPath × α)))
    (e : PPath × α) : List (String × List (PPath × α)) :=
  addToGroups gs (pathName e.1) e

theorem bucketFor_addEntry {α : Type} (gs : List (String × List (PPath × α)))
    (e : PPath × α) (k : String) :
    bucketFor (addEntry gs e) k =
      if k = pathName e.1 then bucketFor gs k ++ [e] else bucketFor gs k := by
  induction gs with
  | nil =>
    by_cases h : k = pathName e.1
    · rw [if_pos h]
      simp [addEntry, addToGroups, bucketFor, h]
    · rw [if_neg h]
      simp [addEntry, addToGroups, bucketFor]
      intro hh
      exact absurd hh.symm h
  | cons g rest ih =>
    obtain ⟨k', es⟩ := g
    by_cases h1 : k' = pathName e.1
    · have hstep : addEntry ((k', es) :: rest) e = (k', es ++ [e]) :: rest := by
        simp [addEntry, addToGroups, h1]
      rw [hstep]
      by_cases h2 : k' = k
      · have hk : k = pathName e.1 := by rw [← h2, h1]
        rw [if_pos hk]
        simp [bucketFor, h2]
      · have hk : ¬(k = pathName e.1) := by
          rw [← h1]
          exact fun hh => h2 hh.symm
        rw [if_neg hk]
        simp [bucketFor, h2]
    · have hstep : addEntry ((k', es) :: rest) e =
          (k', es) :: addToGroups rest (pathName e.1) e := by
        simp [addEntry, addToGroups, h1]
      rw [hstep]
      by_cases h2 : k' = k
      · have hk : ¬(k = pathName e.1) := by
          rw [← h2]
          exact fun hh => h1 hh
        rw [if_neg hk]
        simp [bucketFor, h2]
      · have ih' := ih
        rw [show addToGroups rest (pathName e.1) e = addEntry rest e from rfl]
        by_cases hk : k = pathName e.1
        · rw [if_pos hk]
          simp [bucketFor, h2]
          rw [ih', if_pos hk]
        · rw [if_neg hk]
          simp [bucketFor, h2]
          rw [ih', if_neg hk]

theorem bucketFor_foldl {α : Type} (l : List (PPath × α)) :
    ∀ (gs : List (String × List (PPath × α))) (k : String),
      bucketFor (l.foldl addEntry gs) k
        = bucketFor gs k ++ l.filter (fun e => pathName e.1 == k) := by
  induction l with
  | nil => simp
  | cons e l ih =>
    intro gs k
    rw [List.foldl_cons, ih, bucketFor_addEntry, List.filter_cons]
    by_cases h : k = pathName e.1
    · rw [if_pos h]
      have hb : (pathName e.1 == k) = true := by simp [h]
      simp [hb]
    · rw [if_neg h]
      have hb : (pathName e.1 == k) = false := by
        refine beq_eq_false_iff_ne.mpr ?_
        exact fun hh => h hh.symm
      simp [hb]

theorem bucketFor_groupByName {α : Type} (m : List (PPath × α)) (k : String) :
    bucketFor (groupByName m) k = m.filter (fun e => pathName e.1 == k) := by
  rw [show groupByName m = m.foldl addEntry [] from rfl, bucketFor_foldl]
  simp [bucketFor]

/-- Structural invariant of `groupByName`'s output: every bucket is
nonempty, holds only entries of its own filename key, and keys are
pairwise distinct. -/
def GoodGroups {α : Type} (gs : List (String × List (PPath × α))) : Prop :=
  (∀ g ∈ gs, g.2 ≠ [] ∧ ∀ e ∈ g.2, pathName e.1 = g.1)
  ∧ gs.Pairwise (fun g h => g.1 ≠ h.1)

theorem keys_addToGroups {α : Type} (gs : List (String × List (PPath × α)))
    (k : String) (e : PPath × α) :
    ∀ g ∈ addToGroups gs k e, g.1 ∈ gs.map Prod.fst ∨ g.1 = k := by
  induction gs with
  | nil =>
    intro g hg
    simp [addToGroups] at hg
    right
    rw [hg]
  | cons g0 rest ih =>
    obtain ⟨k', es⟩ := g0
    intro g hg
    by_cases h1 : k' = k
    · rw [show addToGroups ((k', es) :: rest) k e = (k', es ++ [e]) :: rest by
        simp [addToGroups, h1]] at hg
      rcases List.mem_cons.mp hg with h | h
      · left
        exact List.mem_map.mpr ⟨(k', es), List.mem_cons_self _ _, by rw [h]⟩
      · left
        exact List.mem_map.mpr ⟨g, List.mem_cons_of_mem _ h, rfl⟩
    · rw [show addToGroups ((k', es) :: rest) k e =
          (k', es) :: addToGroups rest k e by simp [addToGroups, h1]] at hg
      rcases List.mem_cons.mp hg with h | h
      · left
        exact List.mem_map.mpr ⟨(k', es), List.mem_cons_self _ _, by rw [h]⟩
      · rcases ih g h with h2 | h2
        · left
          obtain ⟨a, ha, hfa⟩ := List.mem_map.mp h2
          exact List.mem_map.mpr ⟨a, List.mem_cons_of_mem _ ha, hfa⟩
        · right; exact h2

theorem goodGroups_addEntry {α : Type} (gs : List (String × List (PPath × α)))
    (e : PPath × α) (h : GoodGroups gs) : GoodGroups (addEntry gs e) := by
  induction gs with
  | nil =>
    constructor
    · intro g hg
      simp [addEntry, addToGroups] at hg
      rw [hg]
      constructor
      · simp
      · intro x hx
        simp at hx
        rw [hx]
    · simp [addEntry, addToGroups]
  | cons g0 rest ih =>
    obtain ⟨k', es⟩ := g0
    have hh := h.1
    have hp := List.pairwise_cons.mp h.2
    by_cases h1 : k' = pathName e.1
    · rw [show addEntry ((k', es) :: rest) e = (k', es ++ [e]) :: rest by
        simp [addEntry, addToGroups, h1]]
      constructor
      · intro g hg
        rcases List.mem_cons.mp hg with hcase | hcase
        · rw [hcase]
          constructor
          · simp
          · intro x hx
            rcases List.mem_append.mp hx with h2 | h2
            · exact (hh (k', es) (List.mem_cons_self _ _)).2 x h2
            · simp at h2
              rw [h2, ← h1]
        · exact hh g (List.mem_cons_of_mem _ hcase)
      · exact List.pairwise_cons.mpr ⟨hp.1, hp.2⟩
    · rw [show addEntry ((k', es) :: rest) e =
          (k', es) :: addToGroups rest (pathName e.1) e by
        simp [addEntry, addToGroups, h1]]
      have hrest : GoodGroups rest :=
        ⟨fun g hg => hh g (List.mem_cons_of_mem _ hg), hp.2⟩
      have hres := ih hrest
      constructor
      · intro g hg
        rcases List.mem_cons.mp hg with hcase | hcase
        · rw [hcase]
          exact hh (k', es) (List.mem_cons_self _ _)
        · exact hres.1 g hcase
      · refine List.pairwise_cons.mpr ⟨?_, hres.2⟩
        intro g hg
        rcases keys_addToGroups rest (pathName e.1) e g hg with h2 | h2
        · obtain ⟨g', hg', hgk⟩ := List.mem_map.mp h2
          rw [← hgk]
          exact hp.1 g' hg'
        · rw [h2]
          exact h1


theorem goodGroups_foldl {α : Type} (l : List (PPath × α)) :
    ∀ gs, GoodGroups gs → GoodGroups (l.foldl addEntry gs) := by
  induction l with
  | nil => intro gs h; exact h
  | cons e l ih =>
    intro gs h
    rw [List.foldl_cons]
    exact ih _ (goodGroups_addEntry gs e h)

theorem goodGroups_groupByName {α : Type} (m : List (PPath × α)) :
    GoodGroups (groupByName m) := by
  refine goodGroups_foldl m [] ⟨?_, ?_⟩
  · intro g hg; simp at hg
  · simp

theorem bucketFor_of_mem {α : Type} (gs : List (String × List (PPath × α)))
    (hgood : GoodGroups gs) (g : String × List (PPath × α)) (hg : g ∈ gs) :
    bucketFor gs g.1 = g.2 := by
  induction gs with
  | nil => simp at hg
  | cons g0 rest ih =>
    obtain ⟨k', es⟩ := g0
    have hp := List.pairwise_cons.mp hgood.2
    rcases List.mem_cons.mp hg with h | h
    · rw [h]
      simp [bucketFor]
    · have hne : k' ≠ g.1 := hp.1 g h
      rw [show bucketFor ((k', es) :: rest) g.1 = bucketFor rest g.1 by
        simp [bucketFor, hne]]
      exact ih ⟨fun x hx => hgood.1 x (List.mem_cons_of_mem _ hx), hp.2⟩ h

theorem exists_group_of_bucket {α : Type}
    (gs : List (String × List (PPath × α))) (k : String)
    (h : bucketFor gs k ≠ []) : ∃ g ∈ gs, g.1 = k := by
  induction gs with
  | nil => simp [bucketFor] at h
  | cons g0 rest ih =>
    obtain ⟨k', es⟩ := g0
    by_cases hk : k' = k
    · exact ⟨(k', es), List.mem_cons_self _ _, hk⟩
    · rw [show bucketFor ((k', es) :: rest) k = bucketFor rest k by
        simp [bucketFor, hk]] at h
      obtain ⟨g, hg, hgk⟩ := ih h
      exact ⟨g, List.mem_cons_of_mem _ hg, hgk⟩

theorem chooseGroup_subset {α : Type} (es : List (PPath × α)) :
    ∀ e ∈ chooseGroup es, e ∈ es := by
  intro e he
  unfold chooseGroup at he
  by_cases hany : es.any (fun x => nonBackup x.1)
  · rw [if_pos hany] at he
    exact List.mem_of_mem_filter he
  · rw [if_neg hany] at he
    exact he

/-- C5 amended: membership characterization of the Backup Duplicate
Resolver.  An entry (a path with its match list) survives resolution if
and only if it is in the raw map and either no component of its path
(directories and the final filename alike) equals `backup`, or every
raw entry sharing its base filename has a `backup` component.  In
particular, within each filename group, if at least one path has no
`backup` component then exactly those paths are kept, each with its
match list unchanged; otherwise the whole group is kept unchanged. -/
theorem mem_filter_backup_duplicates {α : Type} (m : List (PPath × α))
    (e : PPath × α) :
    e ∈ filter_backup_duplicates m ↔
      e ∈ m ∧ (nonBackup e.1 = true
        ∨ ∀ e2 ∈ m, pathName e2.1 = pathName e.1 → nonBackup e2.1 = false) := by
  have hgood := goodGroups_groupByName (m := m)
  constructor
  · intro h
    rw [filter_backup_duplicates, List.mem_flatMap] at h
    obtain ⟨g, hg, he⟩ := h
    have hbucket : bucketFor (groupByName m) g.1 = g.2 :=
      bucketFor_of_mem _ hgood g hg
    have hfilter : g.2 = m.filter (fun x => pathName x.1 == g.1) := by
      rw [← hbucket, bucketFor_groupByName]
    have hsub : e ∈ g.2 := chooseGroup_subset g.2 e he
    have hem : e ∈ m := by
      rw [hfilter] at hsub
      exact List.mem_of_mem_filter hsub
    refine ⟨hem, ?_⟩
    by_cases hany : g.2.any (fun x => nonBackup x.1)
    · left
      unfold chooseGroup at he
      rw [if_pos hany] at he
      exact (List.mem_filter.mp he).2
    · right
      intro e2 he2 hname
      have hgname : pathName e.1 = g.1 := (hgood.1 g hg).2 e hsub
      have he2g : e2 ∈ g.2 := by
        rw [hfilter]
        refine List.mem_filter.mpr ⟨he2, ?_⟩
        simp [hname, hgname]
      have hall := List.any_eq_false.mp (Bool.eq_false_iff.mpr hany)
      simpa using hall e2 he2g
  · rintro ⟨hem, hcond⟩
    have hbf : bucketFor (groupByName m) (pathName e.1)
        = m.filter (fun x => pathName x.1 == pathName e.1) :=
      bucketFor_groupByName m (pathName e.1)
    have hein : e ∈ bucketFor (groupByName m) (pathName e.1) := by
      rw [hbf]
      exact List.mem_filter.mpr ⟨hem, by simp⟩
    obtain ⟨g, hg, hgk⟩ :=
      exists_group_of_bucket _ _ (List.ne_nil_of_mem hein)
    have hg2 : g.2 = bucketFor (groupByName m) (pathName e.1) := by
      rw [← bucketFor_of_mem _ hgood g hg, hgk]
    have heg : e ∈ g.2 := by rw [hg2]; exact hein
    rw [filter_backup_duplicates, List.mem_flatMap]
    refine ⟨g, hg, ?_⟩
    unfold chooseGroup
    rcases hcond with hnb | hall
    · rw [if_pos (List.any_eq_true.mpr ⟨e, heg, hnb⟩)]
      exact List.mem_filter.mpr ⟨heg, hnb⟩
    · have hany : g.2.any (fun x => nonBackup x.1) = false := by
        refine List.any_eq_false.mpr ?_
        intro x hx
        have hxm : x ∈ m := by
          rw [hg2, hbf] at hx
          exact List.mem_of_mem_filter hx
        have hxname : pathName x.1 = pathName e.1 := by
          rw [(hgood.1 g hg).2 x hx, hgk]
        simp [hall x hxm hxname]
      rw [if_neg (by simp [hany])]
      exact heg

theorem foldl_addEntry_frozen {α : Type} (t : List (PPath × α)) (k : String)
    (b : List (PPath × α)) :
    ∀ gs, (∀ e ∈ t, pathName e.1 ≠ k) →
      t.foldl addEntry ((k, b) :: gs) = (k, b) :: t.foldl addEntry gs := by
  induction t with
  | nil => intro gs ht; rfl
  | cons e t ih =>
    intro gs ht
    have hne : ¬(k = pathName e.1) :=
      fun hh => ht e (List.mem_cons_self _ _) hh.symm
    rw [List.foldl_cons, List.foldl_cons]
    rw [show addEntry ((k, b) :: gs) e = (k, b) :: addEntry gs e by
      simp [addEntry, addToGroups, hne]]
    exact ih _ (fun x hx => ht x (List.mem_cons_of_mem _ hx))

theorem foldl_addEntry_uniform {α : Type} (b : List (PPath × α)) (k : String) :
    ∀ es, (∀ e ∈ b, pathName e.1 = k) →
      b.foldl addEntry [(k, es)] = [(k, es ++ b)] := by
  induction b with
  | nil => intro es hb; simp
  | cons e b ih =>
    intro es hb
    have hk : k = pathName e.1 := (hb e (List.mem_cons_self _ _)).symm
    rw [List.foldl_cons]
    rw [show addEntry [(k, es)] e = [(k, es ++ [e])] by
      simp [addEntry, addToGroups, hk]]
    rw [ih (es ++ [e]) (fun x hx => hb x (List.mem_cons_of_mem _ hx))]
    simp

theorem groupByName_block {α : Type} (k : String) (b t : List (PPath × α))
    (hb : b ≠ []) (hub : ∀ e ∈ b, pathName e.1 = k)
    (ht : ∀ e ∈ t, pathName e.1 ≠ k) :
    groupByName (b ++ t) = (k, b) :: groupByName t := by
  rcases b with _ | ⟨e, b'⟩
  · exact absurd rfl hb
  · rw [show groupByName ((e :: b') ++ t) = ((e :: b') ++ t).foldl addEntry []
      from rfl]
    rw [List.foldl_append, List.foldl_cons]
    rw [show addEntry [] e = [(k, [e])] by
      simp [addEntry, addToGroups, hub e (List.mem_cons_self _ _)]]
    rw [foldl_addEntry_uniform b' k [e]
      (fun x hx => hub x (List.mem_cons_of_mem _ hx))]
    rw [foldl_addEntry_frozen t k ([e] ++ b') [] ht]
    rfl

theorem chooseGroup_ne_nil {α : Type} (es : List (PPath × α)) (h : es ≠ []) :
    chooseGroup es ≠ [] := by
  unfold chooseGroup
  by_cases hany : es.any (fun x => nonBackup x.1)
  · rw [if_pos hany]
    obtain ⟨x, hx, hnb⟩ := List.any_eq_true.mp hany
    exact List.ne_nil_of_mem (List.mem_filter.mpr ⟨hx, hnb⟩)
  · rw [if_neg hany]
    exact h

theorem chooseGroup_idem {α : Type} (es : List (PPath × α)) :
    chooseGroup (chooseGroup es) = chooseGroup es := by
  by_cases hany : es.any (fun x => nonBackup x.1)
  · have h1 : chooseGroup es = es.filter (fun x => nonBackup x.1) := by
      unfold chooseGroup
      rw [if_pos hany]
    rw [h1]
    have hany2 : (es.filter (fun x => nonBackup x.1)).any
        (fun x => nonBackup x.1) = true := by
      obtain ⟨x, hx, hnb⟩ := List.any_eq_true.mp hany
      exact List.any_eq_true.mpr ⟨x, List.mem_filter.mpr ⟨hx, hnb⟩, hnb⟩
    unfold chooseGroup
    rw [if_pos hany2]
    exact List.filter_eq_self.mpr (fun a ha => (List.mem_filter.mp ha).2)
  · have h1 : chooseGroup es = es := by
      unfold chooseGroup
      rw [if_neg hany]
    rw [h1, h1]

theorem groupByName_flatMap_choose {α : Type}
    (gs : List (String × List (PPath × α)))
    (hne : ∀ g ∈ gs, g.2 ≠ [])
    (hu : ∀ g ∈ gs, ∀ e ∈ g.2, pathName e.1 = g.1)
    (hd : gs.Pairwise (fun g h => g.1 ≠ h.1)) :
    groupByName (gs.flatMap (fun g => chooseGroup g.2))
      = gs.map (fun g => (g.1, chooseGroup g.2)) := by
  induction gs with
  | nil => rfl
  | cons g gs ih =>
    have hp := List.pairwise_cons.mp hd
    rw [List.flatMap_cons]
    rw [groupByName_block g.1 (chooseGroup g.2) _
      (chooseGroup_ne_nil _ (hne g (List.mem_cons_self _ _)))
      (fun e he =>
        hu g (List.mem_cons_self _ _) e (chooseGroup_subset _ e he))
      (fun e he => by
        obtain ⟨g2, hg2, he2⟩ := List.mem_flatMap.mp he
        rw [hu g2 (List.mem_cons_of_mem _ hg2) e (chooseGroup_subset _ e he2)]
        exact (hp.1 g2 hg2).symm)]
    rw [ih (fun x hx => hne x (List.mem_cons_of_mem _ hx))
      (fun x hx => hu x (List.mem_cons_of_mem _ hx)) hp.2]
    rfl

/-- C9: the Backup Duplicate Resolver is idempotent: applying
`filter_backup_duplicates` to its own output yields that output
unchanged, for every raw search-result map. -/
theorem filter_backup_duplicates_idempotent {α : Type}
    (m : List (PPath × α)) :
    filter_backup_duplicates (filter_backup_duplicates m)
      = filter_backup_duplicates m := by
  have hgood := goodGroups_groupByName (m := m)
  calc filter_backup_duplicates (filter_backup_duplicates m)
      = (groupByName ((groupByName m).flatMap (fun g => chooseGroup g.2))).flatMap
          (fun g => chooseGroup g.2) := rfl
    _ = ((groupByName m).map (fun g => (g.1, chooseGroup g.2))).flatMap
          (fun g => chooseGroup g.2) := by
        rw [groupByName_flatMap_choose (groupByName m)
          (fun g hg => (hgood.1 g hg).1) (fun g hg => (hgood.1 g hg).2)
          hgood.2]
    _ = (groupByName m).flatMap (fun g => chooseGroup (chooseGroup g.2)) := by
        rw [List.flatMap_map]
    _ = (groupByName m).flatMap (fun g => chooseGroup g.2) := by
        have hfun : (fun (g : String × List (PPath × α)) =>
            chooseGroup (chooseGroup g.2)) = fun g => chooseGroup g.2 :=
          funext (fun g => chooseGroup_idem g.2)
        rw [hfun]
    _ = filter_backup_duplicates m := rfl

/-- One token of a natural sort key: either an integer chunk or a
lowered text chunk, as produced by
`[int(text) if text.isdigit() else text.lower() for text in re.split(r'(\d+)', s)]`. -/
inductive PyTok where
  | num (n : Nat)
  | str (s : String)
deriving DecidableEq, Repr

/-- Embeds Python's `int(text)` on a digit chunk. -/
def digitsToNat (l : List Char) : Nat :=
  l.foldl (fun n c => 10 * n + (c.toNat - '0'.toNat)) 0

/-- Lowered text chunk, embedding `text.lower()`. -/
def mkLower (l : List Char) : String := String.mk (l.map Char.toLower)

/-- Embeds `re.split(r'(\d+)', s)` together with the per-chunk mapping of
`natural_sort_key`: a single left-to-right pass that flushes maximal
text runs as lowered `str` tokens and maximal digit runs as `num`
tokens, including the empty text chunks `re.split` produces at the
boundaries (so every key has the shape str, num, str, num, ..., str). -/
def natKeyGo : List Char → List Char → Bool → List PyTok
  | [], acc, false => [.str (mkLower acc)]
  | [], acc, true => [.num (digitsToNat acc), .str ""]
  | c :: rest, acc, false =>
    if c.isDigit then .str (mkLower acc) :: natKeyGo rest [c] true
    else natKeyGo rest (acc ++ [c]) false
  | c :: rest, acc, true =>
    if c.isDigit then natKeyGo rest (acc ++ [c]) true
    else .num (digitsToNat acc) :: natKeyGo rest [c] false

/-- Embeds `natural_sort_key` (identical in src/note_nabber_v2.py and
src/note_nabber_project_with_search.py). -/
def natural_sort_key (s : String) : List PyTok := natKeyGo s.data [] false

/-- Python `int` comparison as an `Ordering`. -/
def pyNatCmp (m n : Nat) : Ordering :=
  if m = n then .eq else if m < n then .lt else .gt

/-- Python `str` comparison (lexicographic by code point) as an
`Ordering`. -/
def pyStrCmp (s t : String) : Ordering :=
  if s = t then .eq else if s < t then .lt else .gt

/-- Comparison of two key tokens under Python semantics: like-kinded
tokens compare by value; comparing an `int` with a `str` raises
TypeError, modelled as `none`. -/
def tokCmp : PyTok → PyTok → Option Ordering
  | .num m, .num n => some (pyNatCmp m n)
  | .str a, .str b => some (pyStrCmp a b)
  | _, _ => none

/-- Python list comparison as used when sorting by `natural_sort_key`:
lexicographic over the tokens, a strict prefix sorts first, and a
cross-kind element comparison (TypeError) is modelled as `none`.
`some true` means the first key sorts strictly before the second. -/
def pyListLt : List PyTok → List PyTok → Option Bool
  | [], [] => some false
  | [], _ :: _ => some true
  | _ :: _, [] => some false
  | x :: xs, y :: ys =>
    match tokCmp x y with
    | none => none
    | some .lt => some true
    | some .gt => some false
    | some .eq => pyListLt xs ys

theorem tokCmp_self (x : PyTok) : tokCmp x x = some .eq := by
  cases x <;> simp [tokCmp, pyNatCmp, pyStrCmp]

theorem pyListLt_append (c l1 l2 : List PyTok) :
    pyListLt (c ++ l1) (c ++ l2) = pyListLt l1 l2 := by
  induction c with
  | nil => rfl
  | cons x c ih => simp [pyListLt, tokCmp_self, ih]

theorem natKeyGo_digits (xs : List Char) :
    ∀ (acc ys : List Char), (∀ c ∈ xs, c.isDigit = true) →
      natKeyGo (xs ++ ys) acc true = natKeyGo ys (acc ++ xs) true := by
  induction xs with
  | nil => intro acc ys _; simp
  | cons c xs ih =>
    intro acc ys h
    have hc : c.isDigit = true := h c (List.mem_cons_self _ _)
    rw [List.cons_append]
    rw [show natKeyGo (c :: (xs ++ ys)) acc true
        = natKeyGo (xs ++ ys) (acc ++ [c]) true by simp [natKeyGo, hc]]
    rw [ih (acc ++ [c]) ys (fun x hx => h x (List.mem_cons_of_mem _ hx))]
    simp

theorem natKeyGo_split (d s : List Char)
    (hd : d ≠ []) (hdd : ∀ c ∈ d, c.isDigit = true)
    (hs : ∀ c, s.head? = some c → c.isDigit = false) :
    ∀ (p acc : List Char) (mode : Bool),
      (∀ c, p.getLast? = some c → c.isDigit = false) →
      (mode = true → p ≠ []) →
      natKeyGo (p ++ d ++ s) acc mode
        = natKeyGo p acc mode ++ .num (digitsToNat d) :: natKeyGo s [] false := by
  intro p
  induction p with
  | nil =>
    intro acc mode hp hmode
    cases mode with
    | true => exact absurd rfl (hmode rfl)
    | false =>
      rcases d with _ | ⟨c, d'⟩
      · exact absurd rfl hd
      · have hc : c.isDigit = true := hdd c (List.mem_cons_self _ _)
        simp only [List.nil_append, List.cons_append]
        rw [show natKeyGo (c :: (d' ++ s)) acc false
            = .str (mkLower acc) :: natKeyGo (d' ++ s) [c] true by
              simp [natKeyGo, hc]]
        rw [natKeyGo_digits d' [c] s
          (fun x hx => hdd x (List.mem_cons_of_mem _ hx))]
        rcases s with _ | ⟨c2, s'⟩
        · simp [natKeyGo, mkLower]
        · have hc2 : c2.isDigit = false := hs c2 rfl
          rw [show natKeyGo (c2 :: s') ([c] ++ d') true
              = .num (digitsToNat ([c] ++ d')) :: natKeyGo s' [c2] false by
                simp [natKeyGo, hc2]]
          simp [natKeyGo, hc2]
  | cons a p' ih =>
    intro acc mode hp hmode
    have hp' : ∀ c, p'.getLast? = some c → c.isDigit = false := by
      intro c hc
      apply hp
      rcases p' with _ | ⟨b, p''⟩
      · simp at hc
      · rw [List.getLast?_cons_cons]
        exact hc
    have hlastne : a.isDigit = true → p' ≠ [] := by
      intro ha hnil
      rw [hnil] at hp
      have h2 := hp a (by simp)
      rw [ha] at h2
      exact Bool.noConfusion h2
    cases mode with
    | false =>
      by_cases ha : a.isDigit
      · have hp'ne : p' ≠ [] := hlastne ha
        simp only [List.cons_append]
        rw [show natKeyGo (a :: (p' ++ d ++ s)) acc false
            = .str (mkLower acc) :: natKeyGo (p' ++ d ++ s) [a] true by
              simp [natKeyGo, ha]]
        rw [ih [a] true hp' (fun _ => hp'ne)]
        rw [show natKeyGo (a :: p') acc false
            = .str (mkLower acc) :: natKeyGo p' [a] true by simp [natKeyGo, ha]]
        simp
      · simp only [List.cons_append]
        rw [show natKeyGo (a :: (p' ++ d ++ s)) acc false
            = natKeyGo (p' ++ d ++ s) (acc ++ [a]) false by simp [natKeyGo, ha]]
        rw [ih (acc ++ [a]) false hp' (fun h => absurd h (by simp))]
        rw [show natKeyGo (a :: p') acc false
            = natKeyGo p' (acc ++ [a]) false by simp [natKeyGo, ha]]
    | true =>
      by_cases ha : a.isDigit
      · have hp'ne : p' ≠ [] := hlastne ha
        simp only [List.cons_append]
        rw [show natKeyGo (a :: (p' ++ d ++ s)) acc true
            = natKeyGo (p' ++ d ++ s) (acc ++ [a]) true by simp [natKeyGo, ha]]
        rw [ih (acc ++ [a]) true hp' (fun _ => hp'ne)]
        rw [show natKeyGo (a :: p') acc true
            = natKeyGo p' (acc ++ [a]) true by simp [natKeyGo, ha]]
      · simp only [List.cons_append]
        rw [show natKeyGo (a :: (p' ++ d ++ s)) acc true
            = .num (digitsToNat acc) :: natKeyGo (p' ++ d ++ s) [a] false by
              simp [natKeyGo, ha]]
        rw [ih [a] false hp' (fun h => absurd h (by simp))]
        rw [show natKeyGo (a :: p') acc true
            = .num (digitsToNat acc) :: natKeyGo p' [a] false by
              simp [natKeyGo, ha]]
        simp

/-- C8: the natural sort key orders embedded integers numerically.  For
any two strings sharing a common prefix (not ending in a digit) and a
common suffix (not starting in a digit) and differing only in an
embedded maximal digit run, the string embedding the smaller integer
sorts strictly before the other under Python's comparison of the keys
(in particular the comparison raises no TypeError), regardless of the
digit counts — e.g. `note2` before `note10`. -/
theorem natural_sort_key_orders_numerically
    (p d1 d2 s : List Char)
    (hp : p.getLast?.all (fun c => !c.isDigit) = true)
    (hd1 : d1 ≠ []) (hd1d : d1.all Char.isDigit = true)
    (hd2 : d2 ≠ []) (hd2d : d2.all Char.isDigit = true)
    (hs : s.head?.all (fun c => !c.isDigit) = true)
    (hlt : digitsToNat d1 < digitsToNat d2) :
    pyListLt (natural_sort_key (String.mk (p ++ d1 ++ s)))
      (natural_sort_key (String.mk (p ++ d2 ++ s))) = some true := by
  have hp' : ∀ c, p.getLast? = some c → c.isDigit = false := by
    intro c hc
    rw [hc] at hp
    simpa using hp
  have hs' : ∀ c, s.head? = some c → c.isDigit = false := by
    intro c hc
    rw [hc] at hs
    simpa using hs
  have hd1d' : ∀ c ∈ d1, c.isDigit = true := by simpa using hd1d
  have hd2d' : ∀ c ∈ d2, c.isDigit = true := by simpa using hd2d
  unfold natural_sort_key
  rw [show (String.mk (p ++ d1 ++ s)).data = p ++ d1 ++ s from rfl]
  rw [show (String.mk (p ++ d2 ++ s)).data = p ++ d2 ++ s from rfl]
  rw [natKeyGo_split d1 s hd1 hd1d' hs' p [] false hp'
    (fun h => absurd h (by simp))]
  rw [natKeyGo_split d2 s hd2 hd2d' hs' p [] false hp'
    (fun h => absurd h (by simp))]
  rw [pyListLt_append]
  have hne : digitsToNat d1 ≠ digitsToNat d2 := Nat.ne_of_lt hlt
  simp [pyListLt, tokCmp, pyNatCmp, hne, hlt]

/-- C8 witness: `note2` sorts strictly before `note10` by the natural
sort key under Python's list comparison, with no TypeError. -/
theorem natural_sort_key_orders_numerically_witness :
    pyListLt (natural_sort_key (String.mk ("note".data ++ ['2'] ++ [])))
      (natural_sort_key (String.mk ("note".data ++ ['1', '0'] ++ [])))
      = some true :=
  natural_sort_key_orders_numerically "note".data ['2'] ['1', '0'] []
    (by decide) (by decide) (by decide) (by decide) (by decide) (by decide)
    (by decide)

end NoteNabber
